import Mathlib

/-!
Shallow embedding of the tree-db extraction pipeline (BrianHicks/tree-db).

The embedding follows the Rust source:
- `src/export.rs`: `FileExporter::slurp` (worklist pre-order traversal emitting
  node / location / edge rows), `ExportableNode::from` / `to_vec`,
  `ExportableNodeLocation::from`, `ExportableEdge`, `ExporterConfig::slurp_all`.
- `src/ingest.rs`: `Ingestor::ingest`, `IngestableNode::from`.
- `src/loader.rs`: `Loader::preload`, `Loader::get`, `Loader::find_grammar`.

A tree-sitter syntax tree is modelled as a mutual inductive (node + forest of
children, each child carrying the grammar field name that
`Node::field_name_for_child` would report for its index).  Sources are modelled
as byte lists; Rust's `str::get(start..end)` is modelled as a bounds-checked
slice (the char-boundary condition of `str::get` only adds further `None`
cases, which none of the results below depend on).
-/

namespace TreeDb

/-- `tree_sitter::Range`: byte offsets plus zero-based row/column points. -/
structure TSRange where
  start_byte : Nat
  start_row : Nat
  start_column : Nat
  end_byte : Nat
  end_row : Nat
  end_column : Nat
deriving Repr, DecidableEq

/-- The per-node data the extractor reads off a `tree_sitter::Node`:
`id()`, `kind()`, `is_named()`, `is_error()`, `range()`. -/
structure NodeData where
  id : Nat
  kind : String
  is_named : Bool
  is_error : Bool
  range : TSRange
deriving Repr, DecidableEq

mutual

/-- A parsed syntax node: its data plus its children in grammar order. -/
inductive TSNode : Type where
  | mk : NodeData → TSForest → TSNode

/-- The children of a node, in grammar-defined order; each child carries the
optional grammar field name `Node::field_name_for_child` reports for its
index. -/
inductive TSForest : Type where
  | nil : TSForest
  | cons : Option String → TSNode → TSForest → TSForest

end

def TSNode.data : TSNode → NodeData
  | .mk d _ => d

def TSNode.children : TSNode → TSForest
  | .mk _ c => c

/-- The children as a list of (field name, node) pairs. -/
def TSForest.toList : TSForest → List (Option String × TSNode)
  | .nil => []
  | .cons f n rest => (f, n) :: rest.toList

/-- The children nodes, without field names (what `Node::children` iterates). -/
def TSForest.nodesList : TSForest → List TSNode
  | .nil => []
  | .cons _ n rest => n :: rest.nodesList

def TSNode.childrenNodes (n : TSNode) : List TSNode :=
  n.children.nodesList

/-- `Node::child_count()`. -/
def TSNode.child_count (n : TSNode) : Nat :=
  n.childrenNodes.length

mutual

/-- Number of nodes in the subtree rooted at a node. -/
def TSNode.size : TSNode → Nat
  | .mk _ c => 1 + TSForest.size c

/-- Number of nodes in a forest. -/
def TSForest.size : TSForest → Nat
  | .nil => 0
  | .cons _ n rest => TSNode.size n + TSForest.size rest

end

/-- Total size of a worklist of nodes. -/
def sizeList (l : List TSNode) : Nat :=
  (l.map TSNode.size).sum

theorem sizeList_nil : sizeList [] = 0 := rfl

theorem sizeList_cons (n : TSNode) (l : List TSNode) :
    sizeList (n :: l) = n.size + sizeList l := by
  simp [sizeList]

theorem sizeList_append (a b : List TSNode) :
    sizeList (a ++ b) = sizeList a + sizeList b := by
  simp [sizeList]

theorem sizeList_reverse (l : List TSNode) :
    sizeList l.reverse = sizeList l := by
  simp [sizeList, List.sum_reverse]

theorem TSForest.sizeList_nodesList : ∀ f : TSForest,
    sizeList f.nodesList = f.size
  | .nil => rfl
  | .cons _ n rest => by
      simp [TSForest.nodesList, TSForest.size, sizeList_cons,
        TSForest.sizeList_nodesList rest]

theorem TSNode.size_pos (n : TSNode) : 1 ≤ n.size := by
  cases n with
  | mk d c => simp [TSNode.size]

theorem TSNode.sizeList_childrenNodes (n : TSNode) :
    sizeList n.childrenNodes + 1 = n.size := by
  cases n with
  | mk d c =>
      simp [TSNode.childrenNodes, TSNode.children, TSForest.sizeList_nodesList,
        TSNode.size]
      omega

/-- `ExportableNode` (export.rs): the stored row for one node, with the byte
range of the source slice to capture (deferred to serialization time). -/
structure ExportableNode where
  path : String
  id : Nat
  kind : String
  is_error : Bool
  source_bytes : Option (Nat × Nat)
deriving Repr, DecidableEq

/-- `ExportableNode::from` (export.rs): capture the byte range only for named
leaf nodes (`node.is_named() && node.child_count() == 0`). -/
def ExportableNode.fromNode (path : String) (n : TSNode) : ExportableNode :=
  { path := path
    id := n.data.id
    kind := n.data.kind
    is_error := n.data.is_error
    source_bytes :=
      if n.data.is_named = true ∧ n.child_count = 0 then
        some (n.data.range.start_byte, n.data.range.end_byte)
      else
        none }

/-- `ExportableNodeLocation` (export.rs) / `IngestableNodeLocation`
(ingest.rs): identical field-for-field, so one structure models both. -/
structure ExportableNodeLocation where
  path : String
  id : Nat
  start_byte : Nat
  start_row : Nat
  start_column : Nat
  end_byte : Nat
  end_row : Nat
  end_column : Nat
deriving Repr, DecidableEq

/-- `ExportableNodeLocation::from` (export.rs). -/
def ExportableNodeLocation.fromNode (path : String) (n : TSNode) :
    ExportableNodeLocation :=
  { path := path
    id := n.data.id
    start_byte := n.data.range.start_byte
    start_row := n.data.range.start_row
    start_column := n.data.range.start_column
    end_byte := n.data.range.end_byte
    end_row := n.data.range.end_row
    end_column := n.data.range.end_column }

/-- `ExportableEdge` (export.rs) / `IngestableEdge` (ingest.rs): identical
field-for-field, so one structure models both. -/
structure ExportableEdge where
  path : String
  parent : Nat
  child : Nat
  field : Option String
deriving Repr, DecidableEq

/-- The edges `FileExporter::slurp` (export.rs lines 432-441) and
`Ingestor::ingest` (ingest.rs lines 288-297) push for one visited node: one
edge per child, in grammar order.  Both files write `child: node.id()` — the
visiting node's own id — for the `child` column, so the embedding does too. -/
def edgesFor (path : String) (n : TSNode) : List ExportableEdge :=
  n.children.toList.map fun fc =>
    { path := path, parent := n.data.id, child := n.data.id, field := fc.1 }

/-- The three row buffers of a `FileExporter` (export.rs). -/
structure FileExporterRows where
  nodes : List ExportableNode
  locations : List ExportableNodeLocation
  edges : List ExportableEdge
deriving Repr, DecidableEq

/-- One iteration of the `while let Some(node) = todo.pop()` body in
`FileExporter::slurp`: push the node row, the location row, and the child
edges. -/
def slurpStep (path : String) (node : TSNode) (acc : FileExporterRows) :
    FileExporterRows :=
  { nodes := acc.nodes ++ [ExportableNode.fromNode path node]
    locations := acc.locations ++ [ExportableNodeLocation.fromNode path node]
    edges := acc.edges ++ edgesFor path node }

/-- The worklist loop of `FileExporter::slurp`.  The Rust `Vec` is a stack
(`push`/`pop` at the end); here the list head is the stack top, so pushing the
children `c1..cn` in order leaves `cn` on top — i.e. prepends
`childrenNodes.reverse`. -/
def slurpLoop (path : String) (todo : List TSNode) (acc : FileExporterRows) :
    FileExporterRows :=
  match todo with
  | [] => acc
  | node :: rest =>
      slurpLoop path (node.childrenNodes.reverse ++ rest)
        (slurpStep path node acc)
termination_by sizeList todo
decreasing_by
  simp only [sizeList_append, sizeList_reverse, sizeList_cons]
  have h := TSNode.sizeList_childrenNodes node
  omega

/-- `FileExporter::slurp` (export.rs): traverse the parsed tree from the root,
collecting all rows. -/
def FileExporter.slurp (path : String) (t : TSNode) : FileExporterRows :=
  slurpLoop path [t] { nodes := [], locations := [], edges := [] }

mutual

/-- The order in which the worklist loop visits the subtree of a node: the
node first, then the subtrees of its children, last child first (the stack
pops the most recently pushed child first). -/
def TSNode.preorder : TSNode → List TSNode
  | .mk d c => TSNode.mk d c :: TSForest.preorderRev c

/-- Visit order of a forest under the stack discipline: later children's
subtrees come first. -/
def TSForest.preorderRev : TSForest → List TSNode
  | .nil => []
  | .cons _ n rest => TSForest.preorderRev rest ++ TSNode.preorder n

end

/-- Concatenated visit order of a worklist. -/
def preorderList : List TSNode → List TSNode
  | [] => []
  | n :: rest => n.preorder ++ preorderList rest

theorem preorderList_append (a b : List TSNode) :
    preorderList (a ++ b) = preorderList a ++ preorderList b := by
  induction a with
  | nil => rfl
  | cons n rest ih => simp [preorderList, ih]

theorem TSForest.preorderRev_eq : ∀ f : TSForest,
    f.preorderRev = preorderList f.nodesList.reverse
  | .nil => rfl
  | .cons fld n rest => by
      simp [TSForest.preorderRev, TSForest.nodesList, preorderList_append,
        TSForest.preorderRev_eq rest, preorderList]

/-- Edges emitted for a list of visited nodes, in visit order. -/
def edgesList (path : String) : List TSNode → List ExportableEdge
  | [] => []
  | n :: rest => edgesFor path n ++ edgesList path rest

theorem edgesList_append (path : String) (a b : List TSNode) :
    edgesList path (a ++ b) = edgesList path a ++ edgesList path b := by
  induction a with
  | nil => rfl
  | cons n rest ih => simp [edgesList, ih]

/-- Characterization of the worklist loop: it emits exactly one node row, one
location row and one per-child edge batch for each node in the deterministic
visit order `preorderList todo`, appended to the accumulator.  Fuel-indexed
formulation for the induction. -/
theorem slurpLoop_spec_aux (path : String) : ∀ (k : Nat) (todo : List TSNode)
    (acc : FileExporterRows), sizeList todo ≤ k →
    slurpLoop path todo acc =
      { nodes := acc.nodes ++
          (preorderList todo).map (ExportableNode.fromNode path)
        locations := acc.locations ++
          (preorderList todo).map (ExportableNodeLocation.fromNode path)
        edges := acc.edges ++ edgesList path (preorderList todo) } := by
  intro k
  induction k with
  | zero =>
      intro todo acc h
      cases todo with
      | nil => simp [slurpLoop, preorderList, edgesList]
      | cons node rest =>
          exfalso
          have h1 := TSNode.size_pos node
          rw [sizeList_cons] at h
          omega
  | succ k ih =>
      intro todo acc h
      cases todo with
      | nil => simp [slurpLoop, preorderList, edgesList]
      | cons node rest =>
          rw [slurpLoop]
          have hsize : sizeList (node.childrenNodes.reverse ++ rest) ≤ k := by
            rw [sizeList_append, sizeList_reverse]
            have h1 := TSNode.sizeList_childrenNodes node
            rw [sizeList_cons] at h
            omega
          rw [ih _ _ hsize]
          cases node with
          | mk d c =>
              simp [slurpStep, preorderList, TSNode.preorder,
                TSForest.preorderRev_eq, TSNode.childrenNodes, TSNode.children,
                preorderList_append, edgesList, edgesList_append]

/-- Characterization of `FileExporter::slurp`: the three row lists are the
per-node rows in visit order `t.preorder`. -/
theorem FileExporter.slurp_spec (path : String) (t : TSNode) :
    FileExporter.slurp path t =
      { nodes := t.preorder.map (ExportableNode.fromNode path)
        locations := t.preorder.map (ExportableNodeLocation.fromNode path)
        edges := edgesList path t.preorder } := by
  unfold FileExporter.slurp
  rw [slurpLoop_spec_aux path (sizeList [t]) [t] _ le_rfl]
  simp [preorderList]

mutual

/-- The visit order of a subtree lists each of its nodes exactly once, so its
length is the subtree size. -/
theorem TSNode.preorder_length : ∀ n : TSNode, n.preorder.length = n.size
  | .mk d c => by
      simp [TSNode.preorder, TSNode.size, TSForest.preorderRev_length c]
      omega

theorem TSForest.preorderRev_length : ∀ f : TSForest,
    f.preorderRev.length = f.size
  | .nil => rfl
  | .cons _ n rest => by
      simp [TSForest.preorderRev, TSForest.size, TSNode.preorder_length n,
        TSForest.preorderRev_length rest]
      omega

end

theorem TSForest.toList_length : ∀ f : TSForest,
    f.toList.length = f.nodesList.length
  | .nil => rfl
  | .cons _ _ rest => by
      simp [TSForest.toList, TSForest.nodesList,
        TSForest.toList_length rest]

theorem edgesFor_length (path : String) (n : TSNode) :
    (edgesFor path n).length = n.child_count := by
  cases n with
  | mk d c =>
      simp [edgesFor, TSNode.child_count, TSNode.childrenNodes,
        TSNode.children, TSForest.toList_length]

mutual

/-- Over a whole subtree, the number of emitted edges is one less than the
number of nodes: every node contributes one edge per child. -/
theorem edgesList_preorder_length (path : String) : ∀ n : TSNode,
    (edgesList path n.preorder).length + 1 = n.size
  | .mk d c => by
      have hf := edgesList_preorderRev_length path c
      simp [TSNode.preorder, edgesList, edgesList_append,
        edgesFor_length, TSNode.size] at *
      simp [TSNode.child_count, TSNode.childrenNodes, TSNode.children,
        ← TSForest.sizeList_nodesList c] at *
      omega

theorem edgesList_preorderRev_length (path : String) : ∀ f : TSForest,
    (edgesList path f.preorderRev).length + f.nodesList.length = f.size
  | .nil => rfl
  | .cons _ n rest => by
      have h1 := edgesList_preorder_length path n
      have h2 := edgesList_preorderRev_length path rest
      simp [TSForest.preorderRev, TSForest.nodesList, TSForest.size,
        edgesList_append] at *
      omega

end

/-- Membership of a node in a tree, defined independently of the traversal:
a node is in a tree if it is the root or is in one of the root's children. -/
inductive IsNodeOf : TSNode → TSNode → Prop where
  | here (t : TSNode) : IsNodeOf t t
  | there {n t : TSNode} (c : TSNode) (hc : c ∈ t.childrenNodes)
      (h : IsNodeOf n c) : IsNodeOf n t

theorem TSForest.preorder_subset_preorderRev : ∀ (f : TSForest) (c : TSNode),
    c ∈ f.nodesList → ∀ x ∈ c.preorder, x ∈ f.preorderRev
  | .cons _ n rest, c, hc, x, hx => by
      simp [TSForest.nodesList] at hc
      simp [TSForest.preorderRev]
      cases hc with
      | inl h => right; rw [← h]; exact hx
      | inr h => left; exact TSForest.preorder_subset_preorderRev rest c h x hx

theorem TSNode.self_mem_preorder (n : TSNode) : n ∈ n.preorder := by
  cases n with
  | mk d c => simp [TSNode.preorder]

mutual

/-- Every node of a tree appears in the visit order. -/
theorem isNodeOf_mem_preorder : ∀ (t n : TSNode), IsNodeOf n t →
    n ∈ t.preorder
  | .mk d f, n, h => by
      cases h with
      | here => exact TSNode.self_mem_preorder _
      | there c hc hin =>
          rw [TSNode.preorder]
          exact List.mem_cons_of_mem _ (isNodeOf_mem_preorderRev f c n
            (by simpa [TSNode.childrenNodes, TSNode.children] using hc) hin)

theorem isNodeOf_mem_preorderRev : ∀ (f : TSForest) (c n : TSNode),
    c ∈ f.nodesList → IsNodeOf n c → n ∈ f.preorderRev
  | .cons _ m rest, c, n, hc, hin => by
      simp [TSForest.nodesList] at hc
      simp [TSForest.preorderRev]
      cases hc with
      | inl he =>
          right
          exact isNodeOf_mem_preorder m n (he ▸ hin)
      | inr hr =>
          left
          exact isNodeOf_mem_preorderRev rest c n hr hin

end

mutual

/-- Conversely, every node in the visit order is a node of the tree. -/
theorem mem_preorder_isNodeOf : ∀ (t n : TSNode), n ∈ t.preorder →
    IsNodeOf n t
  | .mk d c, n, h => by
      rw [TSNode.preorder] at h
      cases List.mem_cons.mp h with
      | inl heq => rw [heq]; exact IsNodeOf.here _
      | inr hmem =>
          obtain ⟨cn, hcn, hin⟩ := mem_preorderRev_exists c n hmem
          exact IsNodeOf.there cn
            (by simpa [TSNode.childrenNodes, TSNode.children] using hcn) hin

theorem mem_preorderRev_exists : ∀ (f : TSForest) (n : TSNode),
    n ∈ f.preorderRev → ∃ c, c ∈ f.nodesList ∧ IsNodeOf n c
  | .cons _ cn rest, n, h => by
      rw [TSForest.preorderRev] at h
      cases List.mem_append.mp h with
      | inl hrest =>
          obtain ⟨c, hc, hin⟩ := mem_preorderRev_exists rest n hrest
          exact ⟨c, by simp [TSForest.nodesList, hc], hin⟩
      | inr hcn =>
          exact ⟨cn, by simp [TSForest.nodesList],
            mem_preorder_isNodeOf cn n hcn⟩

end

/-- Rust's `str::get(start..end)` on the read source, modelled at byte level:
`some` of the exact byte slice when `start <= end <= len`, otherwise `none`.
(The real `str::get` additionally returns `None` off char boundaries; nothing
below depends on that extra `None` case.) -/
def sliceGet (source : List Nat) (start stop : Nat) : Option (List Nat) :=
  if start ≤ stop ∧ stop ≤ source.length then
    some ((source.drop start).take (stop - start))
  else
    none

/-- One serialized `nodes` row as produced by `ExportableNode::to_vec`
(export.rs): the `source` column is `null` exactly when the stored byte range
is absent or `source.get(start..end)` returns `None`. -/
structure NodeValueRow where
  path : String
  id : Nat
  kind : String
  is_error : Bool
  source_text : Option (List Nat)
deriving Repr, DecidableEq

/-- `ExportableNode::to_vec` (export.rs lines 538-548): serialize the stored
row against the file's source; `self.source_bytes.and_then(|(s,e)|
source.get(s..e))`. -/
def ExportableNode.to_vec (n : ExportableNode) (source : List Nat) :
    NodeValueRow :=
  { path := n.path
    id := n.id
    kind := n.kind
    is_error := n.is_error
    source_text := n.source_bytes.bind fun se => sliceGet source se.1 se.2 }

/-- The three relations one file contributes, as serialized by
`From<FileExporter> for BTreeMap<String, NamedRows>` (export.rs): `to_vec`
is applied to each stored node row with the exporter's source. -/
structure ExportedRelations where
  nodes : List NodeValueRow
  node_locations : List ExportableNodeLocation
  edges : List ExportableEdge
deriving Repr, DecidableEq

/-- Full single-file export run: traverse (`FileExporter::slurp`) then
serialize (`From<FileExporter>`). -/
def exportRun (path : String) (src : List Nat) (t : TSNode) :
    ExportedRelations :=
  let ex := FileExporter.slurp path t
  { nodes := ex.nodes.map fun n => ExportableNode.to_vec n src
    node_locations := ex.locations
    edges := ex.edges }

/-- The serialized `nodes` rows of a single-file export run. -/
def exportNodeValues (path : String) (src : List Nat) (t : TSNode) :
    List NodeValueRow :=
  (exportRun path src t).nodes

theorem exportNodeValues_spec (path : String) (src : List Nat) (t : TSNode) :
    exportNodeValues path src t =
      t.preorder.map fun n =>
        ExportableNode.to_vec (ExportableNode.fromNode path n) src := by
  simp [exportNodeValues, exportRun, FileExporter.slurp_spec]

/-- `IngestableNode` (ingest.rs): unlike the export path, the source text is
captured eagerly, and only gated on `node.is_named()` (no leaf restriction). -/
structure IngestableNode where
  path : String
  id : Nat
  kind : String
  is_error : Bool
  source : Option (List Nat)
deriving Repr, DecidableEq

/-- `IngestableNode::from` (ingest.rs lines 362-386): for a named node, a
failed `all_source.get(start..end)` is a hard error ("didn't have enough
bytes..."); for unnamed nodes no source is captured. -/
def IngestableNode.fromNode (path : String) (n : TSNode)
    (all_source : List Nat) : Except String IngestableNode :=
  if n.data.is_named = true then
    match sliceGet all_source n.data.range.start_byte n.data.range.end_byte
    with
    | some s =>
        .ok { path := path, id := n.data.id, kind := n.data.kind,
              is_error := n.data.is_error, source := some s }
    | none => .error "didn't have enough bytes for the source range"
  else
    .ok { path := path, id := n.data.id, kind := n.data.kind,
          is_error := n.data.is_error, source := none }

/-- The three row buffers of an `Ingestor` (ingest.rs). -/
structure IngestorRows where
  nodes : List IngestableNode
  locations : List ExportableNodeLocation
  edges : List ExportableEdge
deriving Repr, DecidableEq

/-- The worklist loop of `Ingestor::ingest` (ingest.rs lines 266-301): same
traversal as `FileExporter::slurp`, but building a node row can fail, which
aborts the whole file. -/
def ingestLoop (path : String) (src : List Nat) (todo : List TSNode)
    (acc : IngestorRows) : Except String IngestorRows :=
  match todo with
  | [] => .ok acc
  | node :: rest =>
      match IngestableNode.fromNode path node src with
      | .error e => .error e
      | .ok row =>
          ingestLoop path src (node.childrenNodes.reverse ++ rest)
            { nodes := acc.nodes ++ [row]
              locations := acc.locations ++
                [ExportableNodeLocation.fromNode path node]
              edges := acc.edges ++ edgesFor path node }
termination_by sizeList todo
decreasing_by
  simp only [sizeList_append, sizeList_reverse, sizeList_cons]
  have h := TSNode.sizeList_childrenNodes node
  omega

/-- `Ingestor::ingest` for one file, given its parsed tree and source. -/
def ingestFile (path : String) (src : List Nat) (t : TSNode) :
    Except String IngestorRows :=
  ingestLoop path src [t] { nodes := [], locations := [], edges := [] }

/-- If any node in the visit order fails `IngestableNode::from`, the ingest
loop cannot succeed (it aborts at the first such node it reaches). -/
theorem ingestLoop_error_aux (path : String) (src : List Nat) :
    ∀ (k : Nat) (todo : List TSNode) (acc : IngestorRows),
    sizeList todo ≤ k →
    (∃ n ∈ preorderList todo,
      ∀ row, IngestableNode.fromNode path n src ≠ .ok row) →
    ∀ rows, ingestLoop path src todo acc ≠ .ok rows := by
  intro k
  induction k with
  | zero =>
      intro todo acc hk hbad rows
      cases todo with
      | nil => obtain ⟨n, hn, _⟩ := hbad; simp [preorderList] at hn
      | cons node rest =>
          intro _
          have h1 := TSNode.size_pos node
          rw [sizeList_cons] at hk
          omega
  | succ k ih =>
      intro todo acc hk hbad rows
      cases todo with
      | nil => obtain ⟨n, hn, _⟩ := hbad; simp [preorderList] at hn
      | cons node rest =>
          rw [ingestLoop]
          obtain ⟨n, hn, hne⟩ := hbad
          cases hrow : IngestableNode.fromNode path node src with
          | error e => simp
          | ok row =>
              have hsize : sizeList (node.childrenNodes.reverse ++ rest) ≤ k
                := by
                rw [sizeList_append, sizeList_reverse]
                have h1 := TSNode.sizeList_childrenNodes node
                rw [sizeList_cons] at hk
                omega
              apply ih _ _ hsize
              refine ⟨n, ?_, hne⟩
              have hn' : n ∈ node.preorder ++ preorderList rest := by
                simpa [preorderList] using hn
              cases node with
              | mk d c =>
                  rcases List.mem_append.mp hn' with hin | hin
                  · rw [TSNode.preorder] at hin
                    cases List.mem_cons.mp hin with
                    | inl heq =>
                        exact absurd (heq ▸ hrow) (hne row)
                    | inr hmem =>
                        rw [preorderList_append]
                        apply List.mem_append_left
                        simpa [TSNode.childrenNodes, TSNode.children,
                          ← TSForest.preorderRev_eq] using hmem
                  · rw [preorderList_append]
                    exact List.mem_append_right _ hin

/-- Opaque handle for a loaded `libloading::Library`. -/
abbrev Library := Nat

/-- Opaque handle for a `tree_sitter::Language` value. -/
abbrev Language := Nat

/-- The platform interactions `Loader` (loader.rs) performs: probing for a
grammar file, opening a shared library, and resolving the language entry
point inside it. -/
structure LoaderEnv where
  fileExists : String → Bool
  openLib : String → Except String Library
  getSymbol : Library → String → Except String Language

/-- Lookup in the model of a `HashMap<String, _>` (association list; inserts
prepend, so the most recent binding wins, matching `HashMap::insert`). -/
def lookup {α : Type} (l : List (String × α)) (k : String) : Option α :=
  match l with
  | [] => none
  | (k1, v) :: rest => if k1 = k then some v else lookup rest k

/-- `Loader` (loader.rs): include directories plus the two caches. -/
structure Loader where
  includeDirs : List String
  grammars : List (String × Library)
  languages : List (String × Language)
deriving Repr, DecidableEq

/-- The file name convention of `Loader::find_grammar`:
`tree-sitter-{name}.{DYLIB_EXTENSION}` (extension fixed to `so` here). -/
def grammarSearchName (name : String) : String :=
  "tree-sitter-" ++ name ++ ".so"

/-- The search loop of `Loader::find_grammar` (loader.rs lines 72-84): first
include directory containing the conventional file name wins. -/
def findGrammarIn (env : LoaderEnv) (dirs : List String)
    (searchName : String) : Except String String :=
  match dirs with
  | [] => .error ("could not find " ++ searchName ++ " in any included path")
  | d :: rest =>
      let candidate := d ++ "/" ++ searchName
      if env.fileExists candidate then .ok candidate
      else findGrammarIn env rest searchName

/-- `Loader::find_grammar` (loader.rs). -/
def Loader.find_grammar (env : LoaderEnv) (l : Loader) (name : String) :
    Except String String :=
  findGrammarIn env l.includeDirs (grammarSearchName name)

/-- What one `preload` call did, to state the no-op property: how many
library opens and how many symbol resolutions it performed. -/
structure PreloadEvents where
  lib_opens : Nat
  symbol_resolutions : Nat
deriving Repr, DecidableEq

/-- First half of `Loader::preload` (loader.rs lines 32-49): reuse the
cached library for the language if present, else search the include
directories and open the module, caching it.  Returns the loader, the
library in use, and how many opens were performed (0 or 1). -/
def Loader.preloadGrammar (env : LoaderEnv) (l : Loader)
    (language_name : String) : Except String (Loader × Library × Nat) :=
  match lookup l.grammars language_name with
  | some lib => .ok (l, lib, 0)
  | none =>
      match Loader.find_grammar env l language_name with
      | .error e => .error e
      | .ok grammar_path =>
          match env.openLib grammar_path with
          | .error e => .error e
          | .ok lib =>
              .ok ({ l with grammars := (language_name, lib) :: l.grammars },
                   lib, 1)

/-- Second half of `Loader::preload` (loader.rs lines 51-63): resolve and
cache the language entry point unless it is already cached. -/
def Loader.preloadLanguage (env : LoaderEnv) (l1 : Loader)
    (language_name symbol_name : String) (lib : Library) (opens : Nat) :
    Except String (Loader × PreloadEvents) :=
  if (lookup l1.languages language_name).isSome then
    .ok (l1, { lib_opens := opens, symbol_resolutions := 0 })
  else
    match env.getSymbol lib symbol_name with
    | .error e => .error e
    | .ok lang =>
        .ok ({ l1 with languages := (language_name, lang) :: l1.languages },
             { lib_opens := opens, symbol_resolutions := 1 })

/-- `Loader::preload` (loader.rs lines 29-64), instrumented with the counts
of library opens and symbol resolutions it performs. -/
def Loader.preload (env : LoaderEnv) (l : Loader) (language_name : String) :
    Except String (Loader × PreloadEvents) :=
  match Loader.preloadGrammar env l language_name with
  | .error e => .error e
  | .ok (l1, lib, opens) =>
      Loader.preloadLanguage env l1 language_name
        ("tree_sitter_" ++ language_name) lib opens

/-- `Loader::get` (loader.rs). -/
def Loader.get (l : Loader) (language_name : String) : Option Language :=
  lookup l.languages language_name

/-- The per-file fan-out of `ExporterConfig::slurp_all` (export.rs lines
300-315): run the extractor on every classified `(language, path)` entry;
any failure is wrapped with that file's path ("could not export from ...")
and fails the whole collection, so no database is built and no rows are
delivered. -/
def slurp_all (extract : String → Except String FileExporterRows)
    (entries : List (String × String)) :
    Except String (List FileExporterRows) :=
  match entries with
  | [] => .ok []
  | (_, path) :: rest =>
      match extract path with
      | .error e => .error ("could not export from `" ++ path ++ "`: " ++ e)
      | .ok rows =>
          match slurp_all extract rest with
          | .error e => .error e
          | .ok rs => .ok (rows :: rs)

/-- A two-node file: a `module` root (id 0) whose only child is an
`identifier` leaf (id 1), a positional child with no field name. -/
def c1Child : TSNode :=
  .mk { id := 1, kind := "identifier", is_named := true, is_error := false,
        range := ⟨0, 0, 0, 1, 0, 1⟩ } .nil

def c1Root : TSNode :=
  .mk { id := 0, kind := "module", is_named := true, is_error := false,
        range := ⟨0, 0, 0, 5, 0, 5⟩ } (.cons none c1Child .nil)

/-- Claim C1: for every visited node and each of its children in grammar
order, the extractor emits exactly one Edge Row whose parent is the visiting
node's id and whose child field is that child node's id.  The code instead
writes the visiting node's own id into the child column (`child: node.id()`
at export.rs line 438 and ingest.rs line 294, where `child.id()` was
evidently intended — the loop pushes `child` onto the worklist on the
preceding line, and the schema's `child` column is meant to reference the
child): on a root (id 0) with a single child (id 1), the single emitted edge
is parent 0 / child 0, not parent 0 / child 1. -/
theorem edge_child_id_bug :
    (FileExporter.slurp "a.py" c1Root).edges =
      [{ path := "a.py", parent := 0, child := 0, field := none }] ∧
    c1Root.childrenNodes = [c1Child] ∧
    c1Root.data.id = 0 ∧ c1Child.data.id = 1 := by
  refine ⟨?_, rfl, rfl, rfl⟩
  rw [FileExporter.slurp_spec]
  rfl

/-- A two-node file used for the tree-shape check: root id 10, child id 11
under field name `body`. -/
def c2Child : TSNode :=
  .mk { id := 11, kind := "block", is_named := true, is_error := false,
        range := ⟨0, 0, 0, 4, 0, 4⟩ } .nil

def c2Root : TSNode :=
  .mk { id := 10, kind := "module", is_named := true, is_error := false,
        range := ⟨0, 0, 0, 4, 0, 4⟩ } (.cons (some "body") c2Child .nil)

/-- Claim C2: the Edge Rows of one file form a tree over the file's node ids
(one root with no incoming edge, every other node exactly one incoming edge,
no cycles).  Because the code writes the parent's id into the child column
(export.rs line 438, ingest.rs line 294), the file's only edge is the
self-loop 10 -> 10: the root has an incoming edge, the non-root node 11 has
none, and the self-loop is a cycle. -/
theorem edges_not_tree_bug :
    (FileExporter.slurp "b.py" c2Root).nodes.map (fun r => r.id) = [10, 11] ∧
    (FileExporter.slurp "b.py" c2Root).edges =
      [{ path := "b.py", parent := 10, child := 10, field := some "body" }] ∧
    ((FileExporter.slurp "b.py" c2Root).edges.filter
      fun e => e.child == 11).length = 0 ∧
    ((FileExporter.slurp "b.py" c2Root).edges.filter
      fun e => e.child == 10).length = 1 ∧
    ∃ e ∈ (FileExporter.slurp "b.py" c2Root).edges, e.parent = e.child := by
  rw [FileExporter.slurp_spec]
  refine ⟨?_, ?_, ?_, ?_, ?_⟩
  · rfl
  · rfl
  · rfl
  · rfl
  · exact ⟨_, by rw [show edgesList "b.py" c2Root.preorder =
      [{ path := "b.py", parent := 10, child := 10, field := some "body" }]
      from rfl]; exact List.mem_singleton.mpr rfl, rfl⟩

/-- A single named leaf node whose byte range (0..5) overruns a 3-byte
source. -/
def c3Tree : TSNode :=
  .mk { id := 5, kind := "identifier", is_named := true, is_error := false,
        range := ⟨0, 0, 0, 5, 0, 5⟩ } .nil

/-- Claim C3 counterexample: in the export pipeline the claim fails — a node
whose byte range overruns the read buffer does NOT make extraction fail;
`ExportableNode::to_vec` (export.rs line 546) maps the failed
`source.get(start..end)` to `null` and the row IS emitted, with absent
source text. -/
theorem export_oob_not_fatal :
    sliceGet [97, 98, 99] 0 5 = none ∧
    c3Tree.data.is_named = true ∧ c3Tree.child_count = 0 ∧
    exportNodeValues "c.py" [97, 98, 99] c3Tree =
      [{ path := "c.py", id := 5, kind := "identifier", is_error := false,
         source_text := none }] := by
  refine ⟨by decide, rfl, rfl, ?_⟩
  rw [exportNodeValues_spec]
  rfl

/-- Claim C3 (amended): when a node's byte range falls outside the read
source, the ingest pipeline (`IngestableNode::from`, ingest.rs lines
363-386) fails the whole file with a fatal error, while the export pipeline
(`ExportableNode::to_vec`, export.rs lines 538-548) still emits every row,
the affected node's row carrying an absent source text. -/
theorem oob_fatal_ingest_absent_export (path : String) (src : List Nat)
    (t n : TSNode) (hn : IsNodeOf n t) (hnamed : n.data.is_named = true)
    (hoob : sliceGet src n.data.range.start_byte n.data.range.end_byte
      = none) :
    (∀ rows, ingestFile path src t ≠ Except.ok rows) ∧
    (exportNodeValues path src t).length = t.size ∧
    ExportableNode.to_vec (ExportableNode.fromNode path n) src
      ∈ exportNodeValues path src t ∧
    (ExportableNode.to_vec (ExportableNode.fromNode path n) src).source_text
      = none := by
  have hmem : n ∈ t.preorder := isNodeOf_mem_preorder t n hn
  refine ⟨?_, ?_, ?_, ?_⟩
  · intro rows
    apply ingestLoop_error_aux path src (sizeList [t]) [t] _ le_rfl
    refine ⟨n, by simpa [preorderList] using hmem, ?_⟩
    intro row
    simp [IngestableNode.fromNode, hnamed, hoob]
  · rw [exportNodeValues_spec]
    simp [TSNode.preorder_length]
  · rw [exportNodeValues_spec]
    exact List.mem_map_of_mem _ hmem
  · simp only [ExportableNode.to_vec, ExportableNode.fromNode]
    by_cases hc : n.data.is_named = true ∧ n.child_count = 0
    · simp [hc, hoob]
    · simp [hc]

/-- A concrete instance for `oob_fatal_ingest_absent_export`: the named leaf
of `c3Tree` (byte range 0..5) against the 3-byte source `[1, 2, 3]`. -/
theorem oob_fatal_ingest_absent_export_witness :
    IsNodeOf c3Tree c3Tree ∧ c3Tree.data.is_named = true ∧
    sliceGet [1, 2, 3] c3Tree.data.range.start_byte
      c3Tree.data.range.end_byte = none ∧
    ((∀ rows, ingestFile "c.py" [1, 2, 3] c3Tree ≠ Except.ok rows) ∧
     (exportNodeValues "c.py" [1, 2, 3] c3Tree).length = c3Tree.size ∧
     ExportableNode.to_vec (ExportableNode.fromNode "c.py" c3Tree) [1, 2, 3]
       ∈ exportNodeValues "c.py" [1, 2, 3] c3Tree ∧
     (ExportableNode.to_vec (ExportableNode.fromNode "c.py" c3Tree)
       [1, 2, 3]).source_text = none) :=
  ⟨IsNodeOf.here _, rfl, by decide,
    oob_fatal_ingest_absent_export "c.py" [1, 2, 3] c3Tree c3Tree
      (IsNodeOf.here _) rfl (by decide)⟩

/-- A single named leaf `number` node (id 9) whose byte range (2..9)
overruns a 4-byte source. -/
def c4Tree : TSNode :=
  .mk { id := 9, kind := "number", is_named := true, is_error := false,
        range := ⟨2, 0, 2, 9, 0, 9⟩ } .nil

/-- Claim C4 counterexample: the "populated if and only if the capture
criterion holds" direction fails in the export pipeline — `c4Tree`'s root is
named with zero children (the criterion of `ExportableNode::from`,
export.rs line 523), yet its emitted row has an absent source text, because
its byte range is not a valid slice of the source. -/
theorem source_text_absent_despite_criterion :
    c4Tree.data.is_named = true ∧ c4Tree.child_count = 0 ∧
    exportNodeValues "d.py" [1, 2, 3, 4] c4Tree =
      [{ path := "d.py", id := 9, kind := "number", is_error := false,
         source_text := none }] := by
  refine ⟨rfl, rfl, ?_⟩
  rw [exportNodeValues_spec]
  rfl

/-- Claim C4 (amended): in the export pipeline, an emitted Syntax Node Row's
source text is populated if and only if the node is named, has zero
children, AND its byte range is a valid slice of the read source; when
populated it is exactly that slice; otherwise the field is absent. -/
theorem source_text_iff_criterion_and_valid (path : String) (src : List Nat)
    (t n : TSNode) (hn : IsNodeOf n t) :
    ExportableNode.to_vec (ExportableNode.fromNode path n) src
      ∈ exportNodeValues path src t ∧
    (∀ s, (ExportableNode.to_vec (ExportableNode.fromNode path n)
        src).source_text = some s ↔
      (n.data.is_named = true ∧ n.child_count = 0 ∧
        sliceGet src n.data.range.start_byte n.data.range.end_byte
          = some s)) ∧
    (∀ s, (ExportableNode.to_vec (ExportableNode.fromNode path n)
        src).source_text = some s →
      s = (src.drop n.data.range.start_byte).take
        (n.data.range.end_byte - n.data.range.start_byte)) := by
  have hmem : n ∈ t.preorder := isNodeOf_mem_preorder t n hn
  have hiff : ∀ s, (ExportableNode.to_vec (ExportableNode.fromNode path n)
      src).source_text = some s ↔
      (n.data.is_named = true ∧ n.child_count = 0 ∧
        sliceGet src n.data.range.start_byte n.data.range.end_byte
          = some s) := by
    intro s
    simp only [ExportableNode.to_vec, ExportableNode.fromNode]
    by_cases hc : n.data.is_named = true ∧ n.child_count = 0
    · simp [hc]
    · simp only [if_neg hc, Option.bind_none]
      constructor
      · intro h; simp at h
      · intro h; exact absurd ⟨h.1, h.2.1⟩ hc
  refine ⟨?_, hiff, ?_⟩
  · rw [exportNodeValues_spec]
    exact List.mem_map_of_mem _ hmem
  · intro s hs
    obtain ⟨_, _, hslice⟩ := (hiff s).mp hs
    unfold sliceGet at hslice
    by_cases hb : n.data.range.start_byte ≤ n.data.range.end_byte ∧
        n.data.range.end_byte ≤ src.length
    · rw [if_pos hb] at hslice
      exact (Option.some_injective _ hslice).symm
    · rw [if_neg hb] at hslice
      exact absurd hslice (by simp)

/-- A concrete instance for `source_text_iff_criterion_and_valid`: a named
leaf with byte range 0..2 against the source `[7, 8, 9]`, whose emitted
source text is exactly `[7, 8]`. -/
def c4wTree : TSNode :=
  .mk { id := 3, kind := "identifier", is_named := true, is_error := false,
        range := ⟨0, 0, 0, 2, 0, 2⟩ } .nil

theorem source_text_iff_criterion_and_valid_witness :
    IsNodeOf c4wTree c4wTree ∧
    (ExportableNode.to_vec (ExportableNode.fromNode "e.py" c4wTree)
      [7, 8, 9] ∈ exportNodeValues "e.py" [7, 8, 9] c4wTree ∧
    (∀ s, (ExportableNode.to_vec (ExportableNode.fromNode "e.py" c4wTree)
        [7, 8, 9]).source_text = some s ↔
      (c4wTree.data.is_named = true ∧ c4wTree.child_count = 0 ∧
        sliceGet [7, 8, 9] c4wTree.data.range.start_byte
          c4wTree.data.range.end_byte = some s)) ∧
    (∀ s, (ExportableNode.to_vec (ExportableNode.fromNode "e.py" c4wTree)
        [7, 8, 9]).source_text = some s →
      s = (([7, 8, 9] : List Nat).drop c4wTree.data.range.start_byte).take
        (c4wTree.data.range.end_byte - c4wTree.data.range.start_byte))) :=
  ⟨IsNodeOf.here _,
    source_text_iff_criterion_and_valid "e.py" [7, 8, 9] c4wTree c4wTree
      (IsNodeOf.here _)⟩

/-- Concatenation of per-file row key lists (the Relation Merger is a pure
append of per-file row sets). -/
def concatAll {α : Type} : List (List α) → List α
  | [] => []
  | l :: ls => l ++ concatAll ls

theorem exportRun_node_keys (p : String) (src : List Nat) (t : TSNode) :
    (exportRun p src t).nodes.map (fun r => (r.path, r.id)) =
      t.preorder.map fun n => (p, n.data.id) := by
  simp [exportRun, FileExporter.slurp_spec, List.map_map]
  intro a _
  exact ⟨rfl, rfl⟩

theorem exportRun_location_keys (p : String) (src : List Nat) (t : TSNode) :
    (exportRun p src t).node_locations.map (fun r => (r.path, r.id)) =
      t.preorder.map fun n => (p, n.data.id) := by
  simp [exportRun, FileExporter.slurp_spec, List.map_map]
  intro a _
  exact ⟨rfl, rfl⟩

/-- Claim C5: over any extraction run (any list of files, each with its
source), the `(path, id)` keys of the `nodes` relation coincide with the
`(path, id)` keys of the `node_locations` relation — the traversal pushes
one location row alongside every node row (export.rs lines 428-430,
ingest.rs lines 280-286), so the keys agree pairwise, with no orphans in
either direction. -/
theorem nodes_locations_same_keys (files : List (String × TSNode))
    (src : String → List Nat) :
    concatAll (files.map fun pt =>
      (exportRun pt.1 (src pt.1) pt.2).nodes.map fun r => (r.path, r.id)) =
    concatAll (files.map fun pt =>
      (exportRun pt.1 (src pt.1) pt.2).node_locations.map
        fun r => (r.path, r.id)) := by
  induction files with
  | nil => rfl
  | cons pt rest ih =>
      simp only [List.map_cons, concatAll, ih, exportRun_node_keys,
        exportRun_location_keys]

/-- Claim C6: a node the parser flags as an error node does not abort
extraction — its Syntax Node Row is still emitted with `is_error = true`,
its Location Row is emitted too, and the rest of the file is still fully
extracted (one row per node of the tree). -/
theorem error_node_still_emitted (path : String) (t n : TSNode)
    (hn : IsNodeOf n t) (herr : n.data.is_error = true) :
    (FileExporter.slurp path t).nodes.length = t.size ∧
    ExportableNode.fromNode path n ∈ (FileExporter.slurp path t).nodes ∧
    (ExportableNode.fromNode path n).is_error = true ∧
    ExportableNodeLocation.fromNode path n
      ∈ (FileExporter.slurp path t).locations := by
  have hmem : n ∈ t.preorder := isNodeOf_mem_preorder t n hn
  rw [FileExporter.slurp_spec]
  refine ⟨?_, ?_, ?_, ?_⟩
  · simp [TSNode.preorder_length]
  · exact List.mem_map_of_mem _ hmem
  · simpa [ExportableNode.fromNode] using herr
  · exact List.mem_map_of_mem _ hmem

/-- An error node (id 1) under a healthy root (id 0). -/
def c6Err : TSNode :=
  .mk { id := 1, kind := "ERROR", is_named := true, is_error := true,
        range := ⟨2, 0, 2, 3, 0, 3⟩ } .nil

def c6Root : TSNode :=
  .mk { id := 0, kind := "module", is_named := true, is_error := false,
        range := ⟨0, 0, 0, 3, 0, 3⟩ } (.cons none c6Err .nil)

theorem error_node_still_emitted_witness :
    (IsNodeOf c6Err c6Root ∧ c6Err.data.is_error = true) ∧
    ((FileExporter.slurp "f.py" c6Root).nodes.length = c6Root.size ∧
     ExportableNode.fromNode "f.py" c6Err
       ∈ (FileExporter.slurp "f.py" c6Root).nodes ∧
     (ExportableNode.fromNode "f.py" c6Err).is_error = true ∧
     ExportableNodeLocation.fromNode "f.py" c6Err
       ∈ (FileExporter.slurp "f.py" c6Root).locations) :=
  ⟨⟨IsNodeOf.there c6Err (List.mem_singleton.mpr rfl) (IsNodeOf.here _),
      rfl⟩,
    error_node_still_emitted "f.py" c6Root c6Err
      (IsNodeOf.there c6Err (List.mem_singleton.mpr rfl) (IsNodeOf.here _))
      rfl⟩

/-- Claim C7: for a fixed file content and fixed grammar (i.e. a fixed
parsed tree), extraction is deterministic — a second run produces exactly
the same rows, and the emission order is the fixed pre-order with the fixed
(stack-reversed, hence stable) child order given by `TSNode.preorder`:
parents are emitted before all of their descendants. -/
theorem extraction_deterministic (path : String) (src : List Nat)
    (t : TSNode) :
    exportRun path src t = exportRun path src t ∧
    (exportRun path src t).nodes = t.preorder.map
      (fun n => ExportableNode.to_vec (ExportableNode.fromNode path n) src) ∧
    (exportRun path src t).node_locations =
      t.preorder.map (ExportableNodeLocation.fromNode path) ∧
    (exportRun path src t).edges = edgesList path t.preorder := by
  refine ⟨rfl, ?_, ?_, ?_⟩ <;>
    simp [exportRun, FileExporter.slurp_spec]

/-- Claim C10: for every file, the number of Edge Rows emitted equals the
number of Syntax Node Rows minus one — each node contributes one edge per
child, and every node except the root is some node's child exactly once. -/
theorem edge_count_eq_node_count_minus_one (path : String) (t : TSNode) :
    (FileExporter.slurp path t).nodes.length =
      (FileExporter.slurp path t).edges.length + 1 := by
  rw [FileExporter.slurp_spec]
  have h := edgesList_preorder_length path t
  simp only []
  rw [List.length_map, TSNode.preorder_length]
  omega

theorem lookup_cons_self {α : Type} (k : String) (v : α)
    (rest : List (String × α)) : lookup ((k, v) :: rest) k = some v := by
  simp [lookup]

/-- A successful `preloadGrammar` leaves the grammar cache holding the
language name and never touches the language cache. -/
theorem preloadGrammar_ok (env : LoaderEnv) (l : Loader) (name : String)
    (l1 : Loader) (lib : Library) (opens : Nat)
    (h : Loader.preloadGrammar env l name = .ok (l1, lib, opens)) :
    lookup l1.grammars name = some lib ∧ l1.languages = l.languages := by
  unfold Loader.preloadGrammar at h
  split at h
  · rename_i lib0 heq
    simp only [Except.ok.injEq, Prod.mk.injEq] at h
    obtain ⟨h1, h2, _⟩ := h
    rw [← h1, ← h2]
    exact ⟨heq, rfl⟩
  · split at h
    · simp at h
    · split at h
      · simp at h
      · rename_i lib1 ho
        simp only [Except.ok.injEq, Prod.mk.injEq] at h
        obtain ⟨h1, h2, _⟩ := h
        rw [← h1, ← h2]
        exact ⟨lookup_cons_self name lib1 l.grammars, rfl⟩

/-- A successful `preloadLanguage` leaves the language cache holding the
language name and never touches the grammar cache. -/
theorem preloadLanguage_ok (env : LoaderEnv) (l1 : Loader)
    (name symbol_name : String) (lib : Library) (opens : Nat)
    (l2 : Loader) (ev : PreloadEvents)
    (h : Loader.preloadLanguage env l1 name symbol_name lib opens
      = .ok (l2, ev)) :
    l2.grammars = l1.grammars ∧ (lookup l2.languages name).isSome = true := by
  unfold Loader.preloadLanguage at h
  split at h
  · rename_i hl
    simp only [Except.ok.injEq, Prod.mk.injEq] at h
    obtain ⟨h1, _⟩ := h
    rw [← h1]
    exact ⟨rfl, hl⟩
  · split at h
    · simp at h
    · simp only [Except.ok.injEq, Prod.mk.injEq] at h
      obtain ⟨h1, _⟩ := h
      rw [← h1]
      exact ⟨rfl, by simp [lookup_cons_self]⟩

/-- After a successful `preload`, both caches hold the language name. -/
theorem preload_ok_caches (env : LoaderEnv) (l : Loader) (name : String)
    (l2 : Loader) (ev : PreloadEvents)
    (h : Loader.preload env l name = .ok (l2, ev)) :
    (∃ lib, lookup l2.grammars name = some lib) ∧
    (lookup l2.languages name).isSome = true := by
  unfold Loader.preload at h
  split at h
  · simp at h
  · rename_i l1 lib opens heq
    obtain ⟨hg1, _⟩ := preloadGrammar_ok env l name l1 lib opens heq
    obtain ⟨hgr, hlg⟩ := preloadLanguage_ok env l1 name
      ("tree_sitter_" ++ name) lib opens l2 ev h
    exact ⟨⟨lib, hgr ▸ hg1⟩, hlg⟩

/-- Claim C8: `Loader::preload` is idempotent per language name — after a
successful preload, a second `preload` of the same name opens no library,
resolves no symbol, leaves both caches (and the whole loader) unchanged,
and returns `Ok`. -/
theorem preload_idempotent (env : LoaderEnv) (l : Loader) (name : String)
    (l2 : Loader) (ev : PreloadEvents)
    (h : Loader.preload env l name = .ok (l2, ev)) :
    Loader.preload env l2 name =
      .ok (l2, { lib_opens := 0, symbol_resolutions := 0 }) := by
  obtain ⟨⟨lib, hg⟩, hl⟩ := preload_ok_caches env l name l2 ev h
  unfold Loader.preload Loader.preloadGrammar Loader.preloadLanguage
  rw [hg]
  simp [if_pos hl]

/-- A concrete instance for `preload_idempotent`: an environment where every
candidate path exists, opening yields library 7 and the symbol resolves to
language 42; the first preload performs one open and one resolution, the
second is a no-op success. -/
def c8Env : LoaderEnv :=
  { fileExists := fun _ => true
    openLib := fun _ => .ok 7
    getSymbol := fun _ _ => .ok 42 }

def c8Loader : Loader :=
  { includeDirs := ["."], grammars := [], languages := [] }

def c8Loaded : Loader :=
  { includeDirs := ["."], grammars := [("python", 7)],
    languages := [("python", 42)] }

theorem preload_idempotent_witness :
    Loader.preload c8Env c8Loader "python" =
      .ok (c8Loaded, { lib_opens := 1, symbol_resolutions := 1 }) ∧
    Loader.preload c8Env c8Loaded "python" =
      .ok (c8Loaded, { lib_opens := 0, symbol_resolutions := 0 }) :=
  ⟨rfl, preload_idempotent c8Env c8Loader "python" c8Loaded
    { lib_opens := 1, symbol_resolutions := 1 } rfl⟩

/-- Claim C9: when extraction of any single classified file fails, the whole
`slurp_all` run fails with an error wrapping that file's path around the
underlying cause, and no relation rows from any file — including files whose
extraction already completed — are delivered (the in-memory database is only
built after the whole collection succeeds, export.rs lines 300-325). -/
theorem slurp_all_fail_fast (extract : String → Except String
      FileExporterRows)
    (pre post : List (String × String)) (lang path cause : String)
    (hpre : ∀ e ∈ pre, ∃ r, extract e.2 = .ok r)
    (hfail : extract path = .error cause) :
    slurp_all extract (pre ++ (lang, path) :: post) =
      .error ("could not export from `" ++ path ++ "`: " ++ cause) ∧
    ∀ results, slurp_all extract (pre ++ (lang, path) :: post)
      ≠ .ok results := by
  have hmain : slurp_all extract (pre ++ (lang, path) :: post) =
      .error ("could not export from `" ++ path ++ "`: " ++ cause) := by
    induction pre with
    | nil => simp [slurp_all, hfail]
    | cons e rest ih =>
        obtain ⟨r, hr⟩ := hpre e (List.mem_cons_self e rest)
        have ih2 := ih fun x hx => hpre x (List.mem_cons_of_mem e hx)
        cases e with
        | mk a b =>
            show (match extract b with
              | .error e1 =>
                  Except.error ("could not export from `" ++ b ++ "`: "
                    ++ e1)
              | .ok rows =>
                  match slurp_all extract (rest ++ (lang, path) :: post)
                  with
                  | .error e2 => .error e2
                  | .ok rs => .ok (rows :: rs)) = _
            rw [hr, ih2]
  exact ⟨hmain, by rw [hmain]; simp⟩

/-- A concrete instance for `slurp_all_fail_fast`: `ok.py` extracts,
`bad.py` fails with cause `boom`, `later.py` is after the failure; the run
fails carrying `bad.py` and delivers no rows. -/
def c9Extract (p : String) : Except String FileExporterRows :=
  if p = "bad.py" then .error "boom"
  else .ok { nodes := [], locations := [], edges := [] }

theorem slurp_all_fail_fast_witness :
    (∀ e ∈ [("python", "ok.py")], ∃ r, c9Extract e.2 = .ok r) ∧
    c9Extract "bad.py" = .error "boom" ∧
    (slurp_all c9Extract
        ([("python", "ok.py")] ++ ("python", "bad.py") ::
          [("python", "later.py")]) =
      .error ("could not export from `" ++ "bad.py" ++ "`: " ++ "boom") ∧
    ∀ results, slurp_all c9Extract
        ([("python", "ok.py")] ++ ("python", "bad.py") ::
          [("python", "later.py")]) ≠ .ok results) :=
  ⟨by intro e he
      refine ⟨{ nodes := [], locations := [], edges := [] }, ?_⟩
      simp at he
      subst he
      rfl,
   rfl,
   slurp_all_fail_fast c9Extract [("python", "ok.py")]
     [("python", "later.py")] "python" "bad.py" "boom"
     (by intro e he
         refine ⟨{ nodes := [], locations := [], edges := [] }, ?_⟩
         simp at he
         subst he
         rfl)
     rfl⟩

end TreeDb
